import Mathlib

/-!
Verification development for the s3-image-uploader plugin (src/main.ts).

Strings of the TypeScript source are modelled as lists of characters
(type Str below).  Every function of the source that the claims touch is
translated into an executable Lean definition; effectful collaborators
(the storage client, the vault filesystem, the editor buffer) are made
explicit: the editor buffer is a Str value, filesystem calls are logged
as an operation list, upload settlement is an Except value.
-/

abbrev Str := List Char

/-- Conversion from Lean string literals to the character-list model. -/
def toL (s : String) : Str := s.toList

/-- Whitespace test used by the model of the JavaScript trim method
(ASCII whitespace characters). -/
def isWS (c : Char) : Bool :=
  c == ' ' || c == '\t' || c == '\n' || c == '\r' || c == '\x0b' || c == '\x0c'

/-- Model of the JavaScript String.trim method: remove leading and
trailing whitespace. -/
def trimL (s : Str) : Str :=
  ((s.dropWhile isWS).reverse.dropWhile isWS).reverse

/-- begins t s is true when the list t is an initial segment of s
(model of JavaScript String.startsWith). -/
def begins : Str → Str → Bool
  | [], _ => true
  | _ :: _, [] => false
  | c :: cs, d :: ds => c == d && begins cs ds

/-- endsB t s is true when the list t is a final segment of s. -/
def endsB (t s : Str) : Bool := begins t.reverse s.reverse

/-- occursAtB tok s i is true when tok occurs in s starting at index i. -/
def occursAtB (tok s : Str) (i : Nat) : Bool := begins tok (s.drop i)

/-- Number of (possibly overlapping) occurrence positions of tok in s. -/
def countOcc (tok : Str) : Str → Nat
  | [] => 0
  | c :: cs => (if begins tok (c :: cs) then 1 else 0) + countOcc tok cs

/-- Index of the first occurrence of tok in s, if any (model of the
JavaScript String.indexOf, with none standing for the -1 result). -/
def findTok (tok : Str) : Str → Option Nat
  | [] => if begins tok [] then some 0 else none
  | c :: cs => if begins tok (c :: cs) then some 0 else (findTok tok cs).map (· + 1)

/-- Replacement of the first occurrence of tok by rep (model of the
JavaScript String.replace with a plain string pattern; when tok does not
occur the input is returned unchanged). -/
def replaceFirst (tok rep : Str) : Str → Str
  | [] => if tok = [] then rep else []
  | c :: cs =>
      if begins tok (c :: cs) then rep ++ (c :: cs).drop tok.length
      else c :: replaceFirst tok rep cs

/-- Split a list at every occurrence of the separator character (model of
the JavaScript String.split with a one-character separator; the result is
always nonempty). -/
def splitOnC (sep : Char) : Str → List Str
  | [] => [[]]
  | c :: cs =>
      if c = sep then [] :: splitOnC sep cs
      else
        match splitOnC sep cs with
        | [] => [[c]]
        | l :: ls => (c :: l) :: ls

/-- Tail part of the join of line lists: every block is preceded by the
separator character. -/
def joinTail (sep : Char) : List Str → Str
  | [] => []
  | l :: ls => sep :: (l ++ joinTail sep ls)

/-- Join a list of blocks with the separator character between blocks
(inverse of splitOnC). -/
def joinC (sep : Char) : List Str → Str
  | [] => []
  | l :: ls => l ++ joinTail sep ls

/-- Index of the last occurrence of a character (model of the JavaScript
String.lastIndexOf, with none standing for the -1 result). -/
def lastIndexOfC (c : Char) : Str → Option Nat
  | [] => none
  | d :: ds =>
      match lastIndexOfC c ds with
      | some i => some (i + 1)
      | none => if d = c then some 0 else none

/-- Model of the JavaScript String.padStart(2, "0"). -/
def padStart2 (s : Str) : Str := List.replicate (2 - s.length) '0' ++ s

/-- Decimal or hexadecimal digit character for a value below 16 (lower
case letters). -/
def digitChar (m : Nat) : Char :=
  if m % 16 < 10 then Char.ofNat (48 + m % 16) else Char.ofNat (87 + m % 16)

/-- Fuel-driven accumulation of the decimal digits of n, most significant
first. -/
def toDigitsAux : Nat → Nat → Str
  | 0, _ => []
  | fuel + 1, n => if n = 0 then [] else toDigitsAux fuel (n / 10) ++ [digitChar (n % 10)]

/-- Decimal representation of a natural number (model of the JavaScript
Number.toString for nonnegative integers). -/
def natToStr (n : Nat) : Str := if n = 0 then ['0'] else toDigitsAux (n + 1) n

/-- Lower-case hexadecimal encoding of one byte, two characters. -/
def byteToHex (b : Nat) : Str := [digitChar (b / 16 % 16), digitChar (b % 16)]

/-- Lower-case hexadecimal digest string of a byte sequence (model of the
hex output of the node crypto hash object: the digest bytes rendered two
lower-case hex characters each). -/
def hexDigest (bytes : List Nat) : Str := bytes.flatMap byteToHex

/-- Decimal digit test. -/
def isDig (c : Char) : Bool := c.isDigit

/-! ## Embedding of src/main.ts -/

/-- Source replaceText (src/main.ts lines 79-99), inner loop over the
line list: the first line containing the trimmed target has the first
occurrence on that line replaced by a range splice, then the loop breaks;
later lines are kept unchanged. -/
def replaceLines (tok rep : Str) : List Str → List Str
  | [] => []
  | l :: ls =>
      match findTok tok l with
      | some ch => (l.take ch ++ rep ++ l.drop (ch + tok.length)) :: ls
      | none => l :: replaceLines tok rep ls

/-- Source replaceText (src/main.ts lines 79-99): trim the target, split
the buffer into lines, scan top to bottom for the first line containing
the target, splice the replacement over the first occurrence on that
line.  The live editor buffer is modelled as the joined document string. -/
def replaceTextL (doc target rep : Str) : Str :=
  joinC '\n' (replaceLines (trimL target) rep (splitOnC '\n' doc))

/-- Source getFileType (src/main.ts lines 101-113). -/
def getFileType (ftype : Str) (uploadVideo uploadAudio uploadPdf : Bool) : Option Str :=
  if begins (toL "video/") ftype && uploadVideo then some (toL "video")
  else if begins (toL "audio/") ftype && uploadAudio then some (toL "audio")
  else if ftype = toL "application/pdf" && uploadPdf then some (toL "pdf")
  else if begins (toL "image/") ftype then some (toL "image")
  else none

/-- Calendar data of the JavaScript Date object as used by the source:
getFullYear, getMonth (zero based) and getDate. -/
structure SimpleDate where
  fullYear : Nat
  monthIndex : Nat
  dayOfMonth : Nat
deriving DecidableEq

/-- Token ${year} of the folder template. -/
def yearTok : Str := toL "${year}"

/-- Token ${month} of the folder template. -/
def monthTok : Str := toL "${month}"

/-- Token ${day} of the folder template. -/
def dayTok : Str := toL "${day}"

/-- Year component string: currentDate.getFullYear().toString(). -/
def yearStr (d : SimpleDate) : Str := natToStr d.fullYear

/-- Month component string:
String(currentDate.getMonth() + 1).padStart(2, "0"). -/
def monthStr (d : SimpleDate) : Str := padStart2 (natToStr (d.monthIndex + 1))

/-- Day component string: String(currentDate.getDate()).padStart(2, "0"). -/
def dayStr (d : SimpleDate) : Str := padStart2 (natToStr d.dayOfMonth)

/-- Token substitution chain of source getFolderPath (src/main.ts lines
128-134): one non-global replace per token, year then month then day. -/
def substDate (base : Str) (d : SimpleDate) : Str :=
  replaceFirst dayTok (dayStr d)
    (replaceFirst monthTok (monthStr d)
      (replaceFirst yearTok (yearStr d) base))

/-- Global folder settings relevant to getFolderPath: settings.folder and
settings.localUploadFolder. -/
structure FolderSettings where
  folder : Str
  localUploadFolder : Str
deriving DecidableEq

/-- Frontmatter keys read by getFolderPath; a missing key is none, and
the JavaScript falsy test treats the empty string like a missing key. -/
structure FmRec where
  folder : Option Str
  localUploadFolder : Option Str
deriving DecidableEq

/-- Source getFolderPath (src/main.ts lines 115-135): pick the global
folder for the mode, trim it, overlay a truthy frontmatter value, then
substitute the date tokens. -/
def getFolderPath (gs : FolderSettings) (fm : Option FmRec) (localUpload : Bool)
    (d : SimpleDate) : Str :=
  let base0 := if localUpload then gs.localUploadFolder else gs.folder
  let base1 := trimL base0
  let base2 :=
    match fm with
    | none => base1
    | some f =>
        match (if localUpload then f.localUploadFolder else f.folder) with
        | none => base1
        | some v => if v = [] then base1 else v
  substDate base2 d

/-- Derived storage file name (src/main.ts lines 229-233): the hex digest
followed by a dot and the last dot-separated segment of the original file
name, digest.${file.name.split(".").pop()}. -/
def deriveName (digest fname : Str) : Str :=
  digest ++ '.' :: (splitOnC '.' fname).getLastD []

/-- Placeholder core text without the trailing newline. -/
def placeholderCore (newFileName : Str) : Str :=
  toL "![uploading...](" ++ newFileName ++ toL ")"

/-- Placeholder inserted into the buffer (src/main.ts line 234):
![uploading...](newFileName) followed by a newline character. -/
def placeholderOf (newFileName : Str) : Str :=
  placeholderCore newFileName ++ ['\n']

/-- Source wrapFileDependingOnType (src/main.ts lines 612-630); the throw
of the default branch is modelled as an Except error. -/
def wrapFile (location ftype localBase : Str) : Except Str Str :=
  let srcPre := if localBase = [] then [] else toL "file://" ++ localBase ++ toL "/"
  if ftype = toL "image" then Except.ok (toL "![image](" ++ location ++ toL ")")
  else if ftype = toL "video" then
    Except.ok (toL "<video src=\"" ++ srcPre ++ location ++ toL "\" controls />")
  else if ftype = toL "audio" then
    Except.ok (toL "<audio src=\"" ++ srcPre ++ location ++ toL "\" controls />")
  else if ftype = toL "pdf" then
    Except.ok (toL "<iframe frameborder=\"0\" border=\"0\" width=\"100%\" height=\"800\" src=\""
      ++ location ++ toL "\"></iframe>")
  else Except.error (toL "Unknown file type")

/-- Vault filesystem calls issued by the local branch of uploadFile. -/
inductive FsOp where
  | existsCheck : Str → FsOp
  | createFolder : Str → FsOp
  | writeBinary : Str → FsOp
deriving DecidableEq

/-- Local branch of source uploadFile (src/main.ts lines 155-167): take
the key up to the last slash as folder path, check existence, create the
folder when absent and the path truthy, write the bytes at the key, and
return the key with one leading slash stripped.  The filesystem is
modelled by the answer function of the existence check plus the
operation log. -/
def uploadFileLocal (existsFn : Str → Bool) (key : Str) : List FsOp × Str :=
  let folderPath :=
    match lastIndexOfC '/' key with
    | none => []
    | some i => key.take i
  let ops :=
    [FsOp.existsCheck folderPath]
      ++ (if existsFn folderPath = false ∧ folderPath ≠ [] then
            [FsOp.createFolder folderPath] else [])
      ++ [FsOp.writeBinary key]
  (ops, if begins (toL "/") key then key.drop 1 else key)

/-- Error text spliced over the placeholder in the catch branch of the
per-file pipeline (src/main.ts lines 255-259). -/
def errorLineOf (msg : Str) : Str := toL "Error uploading file: " ++ msg ++ ['\n']

/-- Per-file pipeline from placeholder insertion to settlement
(src/main.ts lines 240-260): the try block awaits the upload, wraps the
returned location and splices it over the placeholder; the catch branch
splices the error line instead.  The upload settlement is passed in as an
Except value; the outer Except layer is the promise of the async arrow
function, so an error value would be a rejection of that promise. -/
def perFilePipeline (uploadRes : Except Str Str) (ftype : Str) (localUpload : Bool)
    (localFolder placeholder doc : Str) : Except Str Str :=
  let attempt : Except Str Str := do
    let url ← uploadRes
    let md ← wrapFile url ftype (if localUpload then localFolder else [])
    pure (replaceTextL doc placeholder md)
  match attempt with
  | Except.ok d => Except.ok d
  | Except.error e => Except.ok (replaceTextL doc placeholder (errorLineOf e))

/-- Model of Promise.all: the combined promise fulfills with the list of
values when every member fulfills and rejects when a member rejects. -/
def promiseAll {α : Type} : List (Except Str α) → Except Str (List α)
  | [] => Except.ok []
  | Except.ok a :: rest => (promiseAll rest).map (a :: ·)
  | Except.error e :: rest => Except.error e

/-- Notices shown after the batch (src/main.ts lines 263-265): the then
callback of Promise.all fires one notice; a rejected batch promise would
fire none. -/
def batchNotices (settled : List (Except Str Str)) : List Str :=
  match promiseAll settled with
  | Except.ok _ => [toL "All files processed."]
  | Except.error _ => []

/-- Storage settings read by the endpoint computation in onload. -/
structure S3Cfg where
  useCustomEndpoint : Bool
  customEndpoint : Str
  region : Str
  bucket : Str
  forcePathStyle : Bool
  useCustomImageUrl : Bool
  customImageUrl : Str
deriving DecidableEq

/-- Source onload endpoint (src/main.ts lines 276-278). -/
def apiEndpointOf (cfg : S3Cfg) : Str :=
  if cfg.useCustomEndpoint then cfg.customEndpoint
  else toL "https://s3." ++ cfg.region ++ toL ".amazonaws.com/"

/-- Source onload public URL computation (src/main.ts lines 279-283). -/
def imageUrlPathOf (cfg : S3Cfg) : Str :=
  if cfg.useCustomImageUrl then cfg.customImageUrl
  else if cfg.forcePathStyle then apiEndpointOf cfg ++ cfg.bucket ++ toL "/"
  else replaceFirst (toL "://") (toL "://" ++ cfg.bucket ++ toL ".") (apiEndpointOf cfg)

/-! ## Spec-modelled definition used by the amended claim C4 -/

/-- Effective template selection in the words of the amended claim: a
present and non-empty frontmatter override is used verbatim, otherwise
the trimmed global template of the mode is used. -/
def effectiveTemplateSpec (gs : FolderSettings) (fm : Option FmRec)
    (localUpload : Bool) : Str :=
  match fm with
  | some f =>
      match (if localUpload then f.localUploadFolder else f.folder) with
      | some v =>
          if v = [] then trimL (if localUpload then gs.localUploadFolder else gs.folder)
          else v
      | none => trimL (if localUpload then gs.localUploadFolder else gs.folder)
  | none => trimL (if localUpload then gs.localUploadFolder else gs.folder)

/-! ## Basic lemmas about begins, occurrence counting and replaceFirst -/

theorem begins_iff {t s : Str} : begins t s = true ↔ ∃ r, s = t ++ r := by
  induction t generalizing s with
  | nil => simpa [begins] using ⟨s, rfl⟩
  | cons c cs ih =>
    cases s with
    | nil => simp [begins]
    | cons d ds =>
      simp only [begins, Bool.and_eq_true, beq_iff_eq, ih, List.cons_append, List.cons.injEq]
      constructor
      · rintro ⟨h1, r, h2⟩; exact ⟨r, h1.symm, h2⟩
      · rintro ⟨r, h1, h2⟩; exact ⟨h1.symm, r, h2⟩

theorem begins_append_self (t r : Str) : begins t (t ++ r) = true :=
  begins_iff.mpr ⟨r, rfl⟩

theorem begins_refl (t : Str) : begins t t = true := by
  have := begins_append_self t []
  simpa using this

theorem begins_length {t s : Str} (h : begins t s = true) : t.length ≤ s.length := by
  obtain ⟨r, rfl⟩ := begins_iff.mp h
  simp [List.length_append]

theorem begins_false_of_short {t s : Str} (h : s.length < t.length) : begins t s = false := by
  cases hb : begins t s with
  | false => rfl
  | true => exact absurd (begins_length hb) (by omega)

theorem begins_mono {t u : Str} (v : Str) (h : begins t u = true) :
    begins t (u ++ v) = true := by
  obtain ⟨r, rfl⟩ := begins_iff.mp h
  exact begins_iff.mpr ⟨r ++ v, by simp⟩

theorem begins_append_agree {t u : Str} (v : Str) (h : t.length ≤ u.length) :
    begins t (u ++ v) = begins t u := by
  induction t generalizing u with
  | nil => simp [begins]
  | cons c cs ih =>
    cases u with
    | nil => simp at h
    | cons d ds =>
      simp only [List.length_cons, Nat.succ_le_succ_iff] at h
      show (c == d && begins cs (ds ++ v)) = (c == d && begins cs ds)
      rw [ih h]

theorem begins_append_long {t u : Str} (v : Str) (hl : u.length < t.length)
    (h : begins t (u ++ v) = true) :
    ∃ t2, t = u ++ t2 ∧ t2 ≠ [] ∧ begins t2 v = true := by
  induction u generalizing t with
  | nil =>
    refine ⟨t, rfl, ?_, by simpa using h⟩
    intro hn; subst hn; simp at hl
  | cons d ds ih =>
    cases t with
    | nil => simp at hl
    | cons c cs =>
      simp only [List.cons_append, begins, Bool.and_eq_true, beq_iff_eq] at h
      simp only [List.length_cons, Nat.succ_lt_succ_iff] at hl
      obtain ⟨t2, h1, h2, h3⟩ := ih hl h.2
      exact ⟨t2, by simp [h.1, h1], h2, h3⟩

theorem begins_head_mem {t s : Str} (ht : t ≠ []) (h : begins t s = true) :
    ∃ c rest, t = c :: rest ∧ c ∈ s := by
  cases t with
  | nil => exact absurd rfl ht
  | cons c cs =>
    obtain ⟨r, rfl⟩ := begins_iff.mp h
    exact ⟨c, cs, rfl, by simp⟩

theorem endsB_iff {t s : Str} : endsB t s = true ↔ ∃ p, s = p ++ t := by
  unfold endsB
  rw [begins_iff]
  constructor
  · rintro ⟨r, hr⟩
    refine ⟨r.reverse, ?_⟩
    have := congrArg List.reverse hr
    simpa using this
  · rintro ⟨p, rfl⟩
    exact ⟨p.reverse, by simp⟩

theorem take_app_len (u v : Str) : (u ++ v).take u.length = u := by
  induction u with
  | nil => simp
  | cons c cs ih => simp [ih]

theorem drop_app_len (u v : Str) : (u ++ v).drop u.length = v := by
  induction u with
  | nil => simp
  | cons c cs ih => simp [ih]

theorem drop_app_le {n : Nat} (u v : Str) (h : n ≤ u.length) :
    (u ++ v).drop n = u.drop n ++ v := by
  induction u generalizing n with
  | nil =>
    have : n = 0 := by simpa using h
    simp [this]
  | cons c cs ih =>
    cases n with
    | zero => simp
    | succ m =>
      simp only [List.length_cons, Nat.succ_le_succ_iff] at h
      simp [ih h]

theorem drop_app_add (u v : Str) (n : Nat) : (u ++ v).drop (u.length + n) = v.drop n := by
  induction u with
  | nil => simp
  | cons c cs ih => simpa [Nat.succ_add] using ih

theorem occursAtB_cons (tok : Str) (c : Char) (s : Str) (i : Nat) :
    occursAtB tok (c :: s) (i + 1) = occursAtB tok s i := rfl

theorem countOcc_nil (tok : Str) : countOcc tok [] = 0 := rfl

theorem countOcc_zero_iff {tok s : Str} (ht : tok ≠ []) :
    countOcc tok s = 0 ↔ ∀ i, occursAtB tok s i = false := by
  induction s with
  | nil =>
    simp only [countOcc_nil, true_iff]
    intro i
    cases tok with
    | nil => exact absurd rfl ht
    | cons c cs => simp [occursAtB, begins]
  | cons c cs ih =>
    simp only [countOcc]
    constructor
    · intro h i
      have h1 : begins tok (c :: cs) = false := by
        by_contra hb
        simp only [Bool.not_eq_false] at hb
        simp [hb] at h
      have h2 : countOcc tok cs = 0 := by
        rcases Nat.add_eq_zero.mp h with ⟨_, h2⟩
        exact h2
      cases i with
      | zero => simpa [occursAtB] using h1
      | succ j => rw [occursAtB_cons]; exact (ih.mp h2) j
    · intro h
      have h0 : begins tok (c :: cs) = false := by simpa [occursAtB] using h 0
      have hr : countOcc tok cs = 0 := ih.mpr (fun j => by
        have := h (j + 1)
        rwa [occursAtB_cons] at this)
      simp [h0, hr]

theorem countOcc_short {tok s : Str} (h : s.length < tok.length) : countOcc tok s = 0 := by
  induction s with
  | nil => rfl
  | cons c cs ih =>
    have h1 : begins tok (c :: cs) = false := begins_false_of_short h
    have h2 : cs.length < tok.length := by simp at h; omega
    simp [countOcc, h1, ih h2]

theorem countOcc_self {tok : Str} (ht : tok ≠ []) : countOcc tok tok = 1 := by
  cases tok with
  | nil => exact absurd rfl ht
  | cons c cs =>
    have h1 : begins (c :: cs) (c :: cs) = true := begins_refl _
    have h2 : countOcc (c :: cs) cs = 0 := countOcc_short (by simp)
    simp [countOcc, h1, h2]

/-- Crosses tok u v holds when some occurrence of tok in u ++ v straddles
the boundary: a nonempty initial part of tok ends u and the nonempty rest
of tok starts v. -/
def Crosses (tok u v : Str) : Prop :=
  ∃ k, 0 < k ∧ k < tok.length ∧ (∃ p, u = p ++ tok.take k) ∧ (∃ r, v = tok.drop k ++ r)

theorem countOcc_append {tok : Str} (ht : tok ≠ []) {u v : Str} (h : ¬ Crosses tok u v) :
    countOcc tok (u ++ v) = countOcc tok u + countOcc tok v := by
  induction u with
  | nil => simp [countOcc_nil]
  | cons c cs ih =>
    have hne : ¬ Crosses tok cs v := by
      rintro ⟨k, h0, hk, ⟨p, hp⟩, hr⟩
      exact h ⟨k, h0, hk, ⟨c :: p, by simp [hp]⟩, hr⟩
    have hb : begins tok ((c :: cs) ++ v) = begins tok (c :: cs) := by
      rcases Nat.lt_or_ge (c :: cs).length tok.length with hlt | hge
      · have h2 : begins tok (c :: cs) = false := begins_false_of_short hlt
        cases hb2 : begins tok ((c :: cs) ++ v) with
        | false => rw [h2]
        | true =>
          exfalso
          obtain ⟨t2, h3, h4, h5⟩ := begins_append_long v hlt hb2
          obtain ⟨r, hrr⟩ := begins_iff.mp h5
          refine h ⟨(c :: cs).length, by simp, ?_, ⟨[], ?_⟩, ⟨r, ?_⟩⟩
          · have := congrArg List.length h3
            simp only [List.length_append] at this
            have h4' : 0 < t2.length := List.length_pos.mpr h4
            omega
          · rw [h3, take_app_len]; simp
          · rw [h3, drop_app_len]; exact hrr
      · exact begins_append_agree v hge
    have step : countOcc tok ((c :: cs) ++ v)
        = (if begins tok ((c :: cs) ++ v) then 1 else 0) + countOcc tok (cs ++ v) := rfl
    rw [step, hb, ih hne]
    simp [countOcc]
    omega

theorem countOcc_zero_of_disjoint {tok m : Str} (ht : tok ≠ [])
    (hdis : ∀ c ∈ tok, c ∉ m) : countOcc tok m = 0 := by
  rw [countOcc_zero_iff ht]
  intro i
  cases hb : occursAtB tok m i with
  | false => rfl
  | true =>
    exfalso
    obtain ⟨c, rest, hc, hmem⟩ := begins_head_mem ht hb
    exact hdis c (by rw [hc]; simp) (List.drop_subset _ _ hmem)

theorem crosses_digit_right {tok m : Str} (htok : ∀ c ∈ tok, isDig c = false)
    (hm : ∀ c ∈ m, isDig c = true) (hmne : m ≠ []) (a b : Str) :
    ¬ Crosses tok a (m ++ b) := by
  rintro ⟨k, h0, hk, _, ⟨r, hr⟩⟩
  have hd : tok.drop k ≠ [] := by
    intro hnil
    have := congrArg List.length hnil
    simp only [List.length_drop, List.length_nil] at this
    omega
  cases hmv : m with
  | nil => exact hmne hmv
  | cons m0 ms =>
    cases hdv : tok.drop k with
    | nil => exact hd hdv
    | cons t0 ts =>
      rw [hmv, hdv] at hr
      simp only [List.cons_append, List.cons.injEq] at hr
      have ht0 : t0 ∈ tok := List.drop_subset k tok (by rw [hdv]; simp)
      have h1 := htok t0 ht0
      have h2 := hm m0 (by rw [hmv]; simp)
      rw [hr.1] at h2
      rw [h2] at h1
      cases h1

theorem crosses_digit_left {tok m : Str} (htok : ∀ c ∈ tok, isDig c = false)
    (hm : ∀ c ∈ m, isDig c = true) (b : Str) : ¬ Crosses tok m b := by
  rintro ⟨k, h0, hk, ⟨p, hp⟩, _⟩
  have htk : tok.take k ≠ [] := by
    intro hnil
    have := congrArg List.length hnil
    simp only [List.length_take, List.length_nil] at this
    omega
  obtain ⟨c, hc⟩ := List.exists_mem_of_ne_nil _ htk
  have h1 := htok c (List.take_subset _ _ hc)
  have h2 := hm c (by rw [hp]; exact List.mem_append_right _ hc)
  rw [h2] at h1
  cases h1

theorem countOcc_digit_mid {tok m : Str} (ht : tok ≠ [])
    (htok : ∀ c ∈ tok, isDig c = false) (hm : ∀ c ∈ m, isDig c = true) (hmne : m ≠ [])
    (a b : Str) : countOcc tok (a ++ m ++ b) = countOcc tok a + countOcc tok b := by
  have h3 : countOcc tok m = 0 := countOcc_zero_of_disjoint ht (by
    intro c hc hcm
    have e1 := htok c hc
    have e2 := hm c hcm
    rw [e2] at e1
    cases e1)
  rw [List.append_assoc,
    countOcc_append ht (crosses_digit_right htok hm hmne a b),
    countOcc_append ht (crosses_digit_left htok hm b), h3]
  omega

/-- Decidable check that no occurrence of tok can straddle the border of
a block equal to mid, on either side. -/
def noCrossMidB (tok mid : Str) : Bool :=
  (List.range tok.length).all fun k =>
    k == 0 || (!(begins (tok.drop k) mid) && !(begins mid (tok.drop k)) && !(endsB (tok.take k) mid))

theorem crosses_token_right {tok mid : Str} (hnc : noCrossMidB tok mid = true)
    (a b : Str) : ¬ Crosses tok a (mid ++ b) := by
  rintro ⟨k, h0, hk, _, ⟨r, hr⟩⟩
  have hall := List.all_eq_true.mp hnc k (List.mem_range.mpr hk)
  simp only [Bool.or_eq_true, beq_iff_eq, Bool.and_eq_true, Bool.not_eq_true'] at hall
  rcases hall with hk0 | ⟨⟨hf1, hf2⟩, hf3⟩
  · omega
  rcases Nat.lt_or_ge mid.length (tok.drop k).length with hlt | hge
  · have hb : begins mid (tok.drop k ++ r) = true := begins_iff.mpr ⟨b, hr.symm⟩
    rw [begins_append_agree r (Nat.le_of_lt hlt)] at hb
    rw [hb] at hf2
    cases hf2
  · have hb : begins (tok.drop k) (mid ++ b) = true := begins_iff.mpr ⟨r, hr⟩
    rw [begins_append_agree b hge] at hb
    rw [hb] at hf1
    cases hf1

theorem crosses_token_left {tok mid : Str} (hnc : noCrossMidB tok mid = true) (b : Str) :
    ¬ Crosses tok mid b := by
  rintro ⟨k, h0, hk, ⟨p, hp⟩, _⟩
  have hall := List.all_eq_true.mp hnc k (List.mem_range.mpr hk)
  simp only [Bool.or_eq_true, beq_iff_eq, Bool.and_eq_true, Bool.not_eq_true'] at hall
  rcases hall with hk0 | ⟨⟨hf1, hf2⟩, hf3⟩
  · omega
  have hb : endsB (tok.take k) mid = true := endsB_iff.mpr ⟨p, hp⟩
  rw [hb] at hf3
  cases hf3

theorem countOcc_token_mid {tok mid : Str} (ht : tok ≠ []) (hnc : noCrossMidB tok mid = true)
    (a b : Str) :
    countOcc tok (a ++ mid ++ b) = countOcc tok a + countOcc tok mid + countOcc tok b := by
  rw [List.append_assoc,
    countOcc_append ht (crosses_token_right hnc a b),
    countOcc_append ht (crosses_token_left hnc b)]
  omega

theorem countOcc_one_split {tok s : Str} (ht : tok ≠ []) (h : countOcc tok s = 1) :
    ∃ a b, s = a ++ tok ++ b ∧ countOcc tok a = 0 ∧ countOcc tok b = 0 := by
  induction s with
  | nil => simp [countOcc_nil] at h
  | cons c cs ih =>
    cases hb : begins tok (c :: cs) with
    | true =>
      obtain ⟨b, hbb⟩ := begins_iff.mp hb
      refine ⟨[], b, by simpa using hbb, rfl, ?_⟩
      have hcs : countOcc tok cs = 0 := by
        have hstep : countOcc tok (c :: cs) = 1 + countOcc tok cs := by
          simp [countOcc, hb]
        omega
      cases tok with
      | nil => exact absurd rfl ht
      | cons t0 ts =>
        have hcs2 : cs = ts ++ b := by
          simpa using congrArg (List.drop 1) hbb
        rw [countOcc_zero_iff ht] at hcs ⊢
        intro j
        have hj := hcs (ts.length + j)
        rw [occursAtB, hcs2, drop_app_add] at hj
        exact hj
    | false =>
      have h1 : countOcc tok cs = 1 := by
        have hstep : countOcc tok (c :: cs) = 0 + countOcc tok cs := by
          simp [countOcc, hb]
        omega
      obtain ⟨a, b, h2, h3, h4⟩ := ih h1
      refine ⟨c :: a, b, by simp [h2], ?_, h4⟩
      have hba : begins tok (c :: a) = false := by
        cases hba : begins tok (c :: a) with
        | false => rfl
        | true =>
          exfalso
          have hmono : begins tok ((c :: a) ++ (tok ++ b)) = true := begins_mono _ hba
          have hrw : (c :: a) ++ (tok ++ b) = c :: cs := by simp [h2]
          rw [hrw] at hmono
          rw [hmono] at hb
          cases hb
      simp [countOcc, hba, h3]

theorem replaceFirst_walk {tok rep : Str} (a : Str) {r : Str}
    (h : ∀ i, i < a.length → begins tok ((a ++ r).drop i) = false) :
    replaceFirst tok rep (a ++ r) = a ++ replaceFirst tok rep r := by
  induction a with
  | nil => simp
  | cons c cs ih =>
    have h0 : begins tok (c :: (cs ++ r)) = false := by
      simpa using h 0 (by simp)
    show replaceFirst tok rep (c :: (cs ++ r)) = c :: (cs ++ replaceFirst tok rep r)
    rw [replaceFirst, h0]
    simp only [Bool.false_eq_true, if_false, List.cons.injEq, true_and]
    exact ih (fun i hi => by simpa using h (i + 1) (by simp; omega))

theorem replaceFirst_at {tok rep b : Str} (ht : tok ≠ []) :
    replaceFirst tok rep (tok ++ b) = rep ++ b := by
  cases tok with
  | nil => exact absurd rfl ht
  | cons t0 ts =>
    have hb : begins (t0 :: ts) ((t0 :: ts) ++ b) = true := begins_append_self _ _
    show replaceFirst (t0 :: ts) rep (t0 :: (ts ++ b)) = rep ++ b
    rw [replaceFirst]
    simp only [List.cons_append] at hb
    rw [hb]
    simp only [if_true]
    congr 1
    exact drop_app_len (t0 :: ts) b

theorem replaceFirst_nooc {tok rep s : Str} (ht : tok ≠ [])
    (h : ∀ i, occursAtB tok s i = false) : replaceFirst tok rep s = s := by
  induction s with
  | nil => simp [replaceFirst, ht]
  | cons c cs ih =>
    have h0 : begins tok (c :: cs) = false := by simpa [occursAtB] using h 0
    rw [replaceFirst, h0]
    simp only [Bool.false_eq_true, if_false, List.cons.injEq, true_and]
    exact ih (fun i => by simpa [occursAtB] using h (i + 1))

theorem replaceFirst_of_count_zero {tok rep s : Str} (ht : tok ≠ [])
    (h : countOcc tok s = 0) : replaceFirst tok rep s = s :=
  replaceFirst_nooc ht ((countOcc_zero_iff ht).mp h)

theorem replaceFirst_splice {tok rep : Str} (a : Str) {b : Str} (ht : tok ≠ [])
    (hself : noCrossMidB tok tok = true) (ha : countOcc tok a = 0) :
    replaceFirst tok rep (a ++ tok ++ b) = a ++ rep ++ b := by
  have hw : ∀ i, i < a.length → begins tok ((a ++ (tok ++ b)).drop i) = false := by
    intro i hi
    cases hb : begins tok ((a ++ (tok ++ b)).drop i) with
    | false => rfl
    | true =>
      exfalso
      rw [drop_app_le _ _ (Nat.le_of_lt hi)] at hb
      rcases Nat.lt_or_ge (a.drop i).length tok.length with hlt | hge
      · obtain ⟨t2, h1, h2, h3⟩ := begins_append_long _ hlt hb
        have hk0 : 0 < (a.drop i).length := by
          rw [List.length_drop]
          omega
        have ht2 : tok.drop (a.drop i).length = t2 := by
          rw [h1, drop_app_len]
        have h4 : begins (tok.drop (a.drop i).length) (tok ++ b) = true := by
          rw [ht2]; exact h3
        have hlen : (tok.drop (a.drop i).length).length ≤ tok.length := by
          rw [List.length_drop]; omega
        rw [begins_append_agree _ hlen] at h4
        have hall := List.all_eq_true.mp hself (a.drop i).length
          (List.mem_range.mpr hlt)
        simp only [Bool.or_eq_true, beq_iff_eq, Bool.and_eq_true, Bool.not_eq_true'] at hall
        rcases hall with hk0' | ⟨⟨hf1, hf2⟩, hf3⟩
        · omega
        · rw [h4] at hf1; cases hf1
      · rw [begins_append_agree _ hge] at hb
        have := (countOcc_zero_iff ht).mp ha i
        rw [occursAtB] at this
        rw [hb] at this
        cases this
  rw [List.append_assoc, replaceFirst_walk a hw, replaceFirst_at ht]
  simp

theorem findTok_none_iff {tok s : Str} :
    findTok tok s = none ↔ ∀ i, occursAtB tok s i = false := by
  induction s with
  | nil =>
    cases hb : begins tok [] with
    | true =>
      simp only [findTok, hb, if_true]
      constructor
      · intro h; cases h
      · intro h
        have := h 0
        rw [occursAtB] at this
        simp only [List.drop_nil] at this
        rw [hb] at this
        cases this
    | false =>
      simp only [findTok, hb, Bool.false_eq_true, if_false, true_iff]
      intro i
      rw [occursAtB]
      simpa using hb
  | cons c cs ih =>
    cases hb : begins tok (c :: cs) with
    | true =>
      simp only [findTok, hb, if_true]
      constructor
      · intro h; cases h
      · intro h
        have := h 0
        rw [occursAtB] at this
        simp only [List.drop_zero] at this
        rw [hb] at this
        cases this
    | false =>
      simp only [findTok, hb, Bool.false_eq_true, if_false, Option.map_eq_none', ih]
      constructor
      · intro h i
        cases i with
        | zero => rw [occursAtB]; simpa using hb
        | succ j => rw [occursAtB_cons]; exact h j
      · intro h j
        have := h (j + 1)
        rwa [occursAtB_cons] at this

theorem findTok_some_spec {tok s : Str} {i : Nat} (h : findTok tok s = some i) :
    occursAtB tok s i = true ∧ ∀ j, j < i → occursAtB tok s j = false := by
  induction s generalizing i with
  | nil =>
    cases hb : begins tok [] with
    | true =>
      rw [findTok, hb] at h
      simp only [if_true, Option.some.injEq] at h
      subst h
      exact ⟨by rw [occursAtB]; simpa using hb, fun j hj => by omega⟩
    | false =>
      rw [findTok, hb] at h
      simp at h
  | cons c cs ih =>
    cases hb : begins tok (c :: cs) with
    | true =>
      rw [findTok, hb] at h
      simp only [if_true, Option.some.injEq] at h
      subst h
      exact ⟨by rw [occursAtB]; simpa using hb, fun j hj => by omega⟩
    | false =>
      rw [findTok, hb] at h
      simp only [Bool.false_eq_true, if_false] at h
      cases hf : findTok tok cs with
      | none => rw [hf] at h; cases h
      | some i0 =>
        rw [hf] at h
        simp only [Option.map_some', Option.some.injEq] at h
        subst h
        obtain ⟨ho, hmin⟩ := ih hf
        refine ⟨by rwa [occursAtB_cons], ?_⟩
        intro j hj
        cases j with
        | zero => rw [occursAtB]; simpa using hb
        | succ j0 =>
          rw [occursAtB_cons]
          exact hmin j0 (by omega)

theorem replaceFirst_findTok_some {tok rep s : Str} {i : Nat}
    (h : findTok tok s = some i) :
    replaceFirst tok rep s = s.take i ++ rep ++ s.drop (i + tok.length) := by
  induction s generalizing i with
  | nil =>
    cases hb : begins tok [] with
    | true =>
      have htok : tok = [] := by
        cases tok with
        | nil => rfl
        | cons t0 ts => simp [begins] at hb
      rw [findTok, hb] at h
      simp only [if_true, Option.some.injEq] at h
      subst h
      simp [replaceFirst, htok]
    | false =>
      rw [findTok, hb] at h
      simp at h
  | cons c cs ih =>
    cases hb : begins tok (c :: cs) with
    | true =>
      rw [findTok, hb] at h
      simp only [if_true, Option.some.injEq] at h
      subst h
      rw [replaceFirst, hb]
      simp
    | false =>
      rw [findTok, hb] at h
      simp only [Bool.false_eq_true, if_false] at h
      cases hf : findTok tok cs with
      | none => rw [hf] at h; cases h
      | some i0 =>
        rw [hf] at h
        simp only [Option.map_some', Option.some.injEq] at h
        subst h
        rw [replaceFirst, hb]
        simp only [Bool.false_eq_true, if_false]
        rw [ih hf]
        have harith : i0 + 1 + tok.length = i0 + tok.length + 1 := by omega
        rw [harith]
        simp

theorem replaceFirst_findTok_none {tok rep s : Str} (h : findTok tok s = none) :
    replaceFirst tok rep s = s := by
  induction s with
  | nil =>
    cases hb : begins tok [] with
    | true => rw [findTok, hb] at h; simp at h
    | false =>
      have htok : tok ≠ [] := by
        intro hnil
        rw [hnil] at hb
        simp [begins] at hb
      simp [replaceFirst, htok]
  | cons c cs ih =>
    cases hb : begins tok (c :: cs) with
    | true => rw [findTok, hb] at h; simp at h
    | false =>
      rw [findTok, hb] at h
      simp only [Bool.false_eq_true, if_false, Option.map_eq_none'] at h
      rw [replaceFirst, hb]
      simp [ih h]

theorem joinC_cons (sep : Char) (l : Str) (ls : List Str) :
    joinC sep (l :: ls) = l ++ joinTail sep ls := rfl

theorem joinTail_cons (sep : Char) (l : Str) (ls : List Str) :
    joinTail sep (l :: ls) = sep :: (l ++ joinTail sep ls) := rfl

theorem splitOnC_ne_nil (sep : Char) (s : Str) : splitOnC sep s ≠ [] := by
  cases s with
  | nil => simp [splitOnC]
  | cons c cs =>
    simp only [splitOnC]
    by_cases hc : c = sep
    · simp [hc]
    · simp only [hc, if_false]
      cases h : splitOnC sep cs <;> simp

theorem joinTail_eq (sep : Char) {ls : List Str} (h : ls ≠ []) :
    joinTail sep ls = sep :: joinC sep ls := by
  cases ls with
  | nil => exact absurd rfl h
  | cons l ls2 => rw [joinTail, joinC]

theorem joinC_splitOnC (sep : Char) (s : Str) : joinC sep (splitOnC sep s) = s := by
  induction s with
  | nil => simp [splitOnC, joinC, joinTail]
  | cons c cs ih =>
    by_cases hc : c = sep
    · subst hc
      have hsp1 : splitOnC c (c :: cs) = [] :: splitOnC c cs := by
        simp [splitOnC]
      rw [hsp1, joinC_cons, joinTail_eq _ (splitOnC_ne_nil c cs), ih]
      simp
    · simp only [splitOnC, if_neg hc]
      cases h : splitOnC sep cs with
      | nil => exact absurd h (splitOnC_ne_nil sep cs)
      | cons l ls =>
        rw [h, joinC_cons] at ih
        rw [joinC_cons]
        simpa using ih

theorem splitOnC_no_sep {sep : Char} {s : Str} : ∀ l ∈ splitOnC sep s, sep ∉ l := by
  induction s with
  | nil => simp [splitOnC]
  | cons c cs ih =>
    by_cases hc : c = sep
    · subst hc
      simp only [splitOnC, if_pos rfl]
      intro l hl
      rcases List.mem_cons.mp hl with rfl | hl2
      · simp
      · exact ih l hl2
    · simp only [splitOnC, if_neg hc]
      cases h : splitOnC sep cs with
      | nil => exact absurd h (splitOnC_ne_nil sep cs)
      | cons l0 ls =>
        intro l hl
        rcases List.mem_cons.mp hl with rfl | hl2
        · intro hmem
          rcases List.mem_cons.mp hmem with he | hmem2
          · exact hc he.symm
          · exact ih l0 (by rw [h]; simp) hmem2
        · exact ih l (by rw [h]; simp [hl2])

theorem joinC_mem_split {sep : Char} {ls : List Str} {l : Str} (h : l ∈ ls) :
    ∃ u w, joinC sep ls = u ++ l ++ w := by
  induction ls with
  | nil => simp at h
  | cons x xs ih =>
    rcases List.mem_cons.mp h with rfl | h2
    · exact ⟨[], joinTail sep xs, rfl⟩
    · obtain ⟨u, w, hw⟩ := ih h2
      have hx : xs ≠ [] := by
        intro hnil
        rw [hnil] at h2
        simp at h2
      refine ⟨x ++ sep :: u, w, ?_⟩
      rw [joinC_cons, joinTail_eq _ hx, hw]
      simp

theorem replaceLines_ne_nil {tok rep : Str} {ls : List Str} (h : ls ≠ []) :
    replaceLines tok rep ls ≠ [] := by
  cases ls with
  | nil => exact absurd rfl h
  | cons l ls2 =>
    rw [replaceLines]
    cases findTok tok l <;> simp

theorem findTok_nil_tok (l : Str) : findTok [] l = some 0 := by
  cases l <;> simp [findTok, begins]

theorem replaceFirst_nil_tok (rep s : Str) : replaceFirst [] rep s = rep ++ s := by
  cases s <;> simp [replaceFirst, begins]

theorem begins_line_agree {t l : Str} {rest : Str} (hn : '\n' ∉ t)
    (hrest : rest = [] ∨ ∃ r2, rest = '\n' :: r2) :
    begins t (l ++ rest) = begins t l := by
  rcases Nat.lt_or_ge l.length t.length with hlt | hge
  · have h2 : begins t l = false := begins_false_of_short hlt
    cases hb : begins t (l ++ rest) with
    | false => rw [h2]
    | true =>
      exfalso
      obtain ⟨t2, h3, h4, h5⟩ := begins_append_long rest hlt hb
      rcases hrest with rfl | ⟨r2, rfl⟩
      · cases t2 with
        | nil => exact h4 rfl
        | cons a as => simp [begins] at h5
      · cases t2 with
        | nil => exact h4 rfl
        | cons a as =>
          have ha : a = '\n' := by
            simp only [begins, Bool.and_eq_true, beq_iff_eq] at h5
            exact h5.1
          apply hn
          rw [h3, ha]
          simp
  · exact begins_append_agree rest hge

theorem replaceLines_join {t : Str} (rep : Str) (hn : '\n' ∉ t) (doc : Str) :
    joinC '\n' (replaceLines t rep (splitOnC '\n' doc)) = replaceFirst t rep doc := by
  cases t with
  | nil =>
    cases hsp : splitOnC '\n' doc with
    | nil => exact absurd hsp (splitOnC_ne_nil _ _)
    | cons l ls =>
      have hj : l ++ joinTail '\n' ls = doc := by
        have := joinC_splitOnC '\n' doc
        rw [hsp, joinC_cons] at this
        exact this
      rw [replaceLines, findTok_nil_tok, replaceFirst_nil_tok]
      rw [joinC_cons]
      simp only [List.take_zero, List.length_nil, Nat.add_zero, List.drop_zero,
        List.nil_append]
      rw [List.append_assoc, hj]
  | cons t0 ts =>
    induction doc with
    | nil =>
      have hf : findTok (t0 :: ts) ([] : Str) = none := by
        simp [findTok, begins]
      simp [splitOnC, replaceLines, hf, joinC, joinTail, replaceFirst]
    | cons c cs ih =>
      by_cases hc : c = '\n'
      · subst hc
        have ht0 : t0 ≠ '\n' := fun he => hn (by rw [he]; simp)
        have hb0 : begins (t0 :: ts) ('\n' :: cs) = false := by
          simp [begins, ht0]
        have hf : findTok (t0 :: ts) ([] : Str) = none := by
          simp [findTok, begins]
        rw [show splitOnC '\n' ('\n' :: cs) = [] :: splitOnC '\n' cs from by
          simp [splitOnC]]
        rw [replaceLines, hf, joinC_cons,
          joinTail_eq _ (replaceLines_ne_nil (splitOnC_ne_nil _ _)), ih]
        rw [replaceFirst, hb0]
        simp
      · cases hsp : splitOnC '\n' cs with
        | nil => exact absurd hsp (splitOnC_ne_nil _ _)
        | cons l ls =>
          have hsplit : splitOnC '\n' (c :: cs) = (c :: l) :: ls := by
            simp only [splitOnC, if_neg hc, hsp]
          have hjoin : l ++ joinTail '\n' ls = cs := by
            have := joinC_splitOnC '\n' cs
            rw [hsp, joinC] at this
            exact this
          have hcc : c :: cs = (c :: l) ++ joinTail '\n' ls := by
            rw [← hjoin]
            simp
          have hrest : joinTail '\n' ls = [] ∨ ∃ r2, joinTail '\n' ls = '\n' :: r2 := by
            cases ls with
            | nil => left; rfl
            | cons y ys => right; exact ⟨y ++ joinTail '\n' ys, rfl⟩
          have hfactA : begins (t0 :: ts) (c :: cs) = begins (t0 :: ts) (c :: l) := by
            rw [hcc]
            exact begins_line_agree hn hrest
          rw [hsplit]
          cases hb : begins (t0 :: ts) (c :: l) with
          | true =>
            have hfc : findTok (t0 :: ts) (c :: l) = some 0 := by
              rw [findTok, hb]
              simp
            have hbdoc : begins (t0 :: ts) (c :: cs) = true := by
              rw [hfactA]; exact hb
            rw [replaceLines, hfc, replaceFirst, hbdoc]
            simp only [if_true, joinC_cons, List.take_zero, Nat.zero_add, List.nil_append]
            have hlen : (t0 :: ts).length ≤ (c :: l).length := begins_length hb
            rw [List.append_assoc]
            congr 1
            rw [hcc, drop_app_le _ _ hlen]
          | false =>
            have hbdoc : begins (t0 :: ts) (c :: cs) = false := by
              rw [hfactA]; exact hb
            cases hfl : findTok (t0 :: ts) l with
            | some ch =>
              have hfc : findTok (t0 :: ts) (c :: l) = some (ch + 1) := by
                rw [findTok, hb]
                simp [hfl]
              rw [replaceLines, hfc, replaceFirst, hbdoc]
              simp only [Bool.false_eq_true, if_false]
              rw [← ih, hsp, replaceLines, hfl, joinC_cons, joinC_cons]
              simp only [List.take_succ_cons]
              have harith : ch + 1 + (t0 :: ts).length = (ch + (t0 :: ts).length) + 1 := by
                omega
              rw [harith, List.drop_succ_cons]
              simp
            | none =>
              have hfc : findTok (t0 :: ts) (c :: l) = none := by
                rw [findTok, hb]
                simp [hfl]
              rw [replaceLines, hfc, replaceFirst, hbdoc]
              simp only [Bool.false_eq_true, if_false]
              rw [← ih, hsp, replaceLines, hfl, joinC_cons, joinC_cons]
              simp

theorem replaceTextL_eq_replaceFirst {doc target rep : Str}
    (hn : '\n' ∉ trimL target) :
    replaceTextL doc target rep = replaceFirst (trimL target) rep doc :=
  replaceLines_join rep hn doc

theorem replaceLines_id {tok rep : Str} {ls : List Str}
    (h : ∀ l ∈ ls, findTok tok l = none) : replaceLines tok rep ls = ls := by
  induction ls with
  | nil => rfl
  | cons l ls2 ih =>
    rw [replaceLines, h l (by simp)]
    rw [ih (fun x hx => h x (by simp [hx]))]

theorem replaceTextL_noop_newline {doc target rep : Str} (h : '\n' ∈ trimL target) :
    replaceTextL doc target rep = doc := by
  rw [replaceTextL]
  have hall : ∀ l ∈ splitOnC '\n' doc, findTok (trimL target) l = none := by
    intro l hl
    rw [findTok_none_iff]
    intro i
    cases hb : occursAtB (trimL target) l i with
    | false => rfl
    | true =>
      exfalso
      obtain ⟨r, hr⟩ := begins_iff.mp hb
      have hmem : '\n' ∈ l.drop i := by
        rw [hr]
        exact List.mem_append_left _ h
      exact splitOnC_no_sep l hl (List.drop_subset _ _ hmem)
  rw [replaceLines_id hall, joinC_splitOnC]

theorem replaceTextL_noop {doc target rep : Str}
    (h : ∀ i, occursAtB (trimL target) doc i = false) :
    replaceTextL doc target rep = doc := by
  have htok : trimL target ≠ [] := by
    intro he
    have h0 := h 0
    rw [occursAtB, he] at h0
    simp [begins] at h0
  rw [replaceTextL]
  have hall : ∀ l ∈ splitOnC '\n' doc, findTok (trimL target) l = none := by
    intro l hl
    rw [findTok_none_iff]
    intro i
    cases hb : occursAtB (trimL target) l i with
    | false => rfl
    | true =>
      exfalso
      obtain ⟨u, w, hw⟩ := joinC_mem_split hl
      rw [joinC_splitOnC] at hw
      have hi : i ≤ l.length := by
        by_contra hgt
        push_neg at hgt
        rw [occursAtB, List.drop_eq_nil_of_le (Nat.le_of_lt hgt)] at hb
        cases htk : trimL target with
        | nil => exact htok htk
        | cons a as =>
          rw [htk] at hb
          simp [begins] at hb
      have hocc : occursAtB (trimL target) doc (u.length + i) = true := by
        rw [occursAtB, hw, List.append_assoc, drop_app_add]
        rw [occursAtB] at hb
        rw [drop_app_le _ _ hi]
        exact begins_mono _ hb
      rw [h (u.length + i)] at hocc
      cases hocc
  rw [replaceLines_id hall, joinC_splitOnC]

theorem trimL_wrap {a b : Char} (u : Str) (ha : isWS a = false) (hb : isWS b = false) :
    trimL (a :: (u ++ [b, '\n'])) = a :: (u ++ [b]) := by
  rw [trimL]
  rw [List.dropWhile_cons_of_neg (by simp [ha])]
  have h1 : (a :: (u ++ [b, '\n'])).reverse = '\n' :: b :: (u.reverse ++ [a]) := by
    simp
  rw [h1]
  rw [List.dropWhile_cons_of_pos (by decide : isWS '\n' = true)]
  rw [List.dropWhile_cons_of_neg (by simp [hb])]
  simp

theorem placeholderCore_eq (name : Str) :
    placeholderCore name = '!' :: ((toL "[uploading...](" ++ name) ++ [')']) := by
  rw [placeholderCore]
  have h1 : toL "![uploading...](" = '!' :: toL "[uploading...](" := by decide
  have h2 : toL ")" = [')'] := by decide
  rw [h1, h2]
  simp

theorem placeholderCore_ne_nil (name : Str) : placeholderCore name ≠ [] := by
  rw [placeholderCore_eq]
  simp

theorem trimL_placeholderOf (name : Str) :
    trimL (placeholderOf name) = placeholderCore name := by
  have hsh : placeholderOf name
      = '!' :: ((toL "[uploading...](" ++ name) ++ [')', '\n']) := by
    rw [placeholderOf, placeholderCore_eq]
    simp
  rw [hsh, trimL_wrap _ (by decide) (by decide), ← placeholderCore_eq]

theorem newline_not_in_core {name : Str} (h : '\n' ∉ name) :
    '\n' ∉ placeholderCore name := by
  rw [placeholderCore_eq]
  intro hmem
  rcases List.mem_cons.mp hmem with he | hmem2
  · cases he
  rcases List.mem_append.mp hmem2 with h1 | h2
  · rcases List.mem_append.mp h1 with h3 | h4
    · revert h3; decide
    · exact h h4
  · revert h2; decide

theorem toDigitsAux_digits {fuel n : Nat} : ∀ c ∈ toDigitsAux fuel n, isDig c = true := by
  induction fuel generalizing n with
  | zero => simp [toDigitsAux]
  | succ f ih =>
    by_cases hn : n = 0
    · simp [toDigitsAux, hn]
    · rw [toDigitsAux]
      simp only [hn, if_false]
      intro c hc
      rcases List.mem_append.mp hc with h1 | h2
      · exact ih c h1
      · have hce : c = digitChar (n % 10) := by simpa using h2
        subst hce
        have h10 : n % 10 < 10 := Nat.mod_lt _ (by omega)
        have hdec : ∀ m, m < 10 → isDig (digitChar m) = true := by decide
        exact hdec _ h10

theorem natToStr_digits (n : Nat) : ∀ c ∈ natToStr n, isDig c = true := by
  rw [natToStr]
  by_cases h : n = 0
  · simp only [h, if_true]
    intro c hc
    have : c = '0' := by simpa using hc
    subst this
    decide
  · simp only [h, if_false]
    exact toDigitsAux_digits

theorem natToStr_ne_nil (n : Nat) : natToStr n ≠ [] := by
  rw [natToStr]
  by_cases h : n = 0
  · simp [h]
  · simp only [h, if_false]
    rw [toDigitsAux]
    simp [h]

theorem padStart2_digits {s : Str} (h : ∀ c ∈ s, isDig c = true) :
    ∀ c ∈ padStart2 s, isDig c = true := by
  intro c hc
  rw [padStart2] at hc
  rcases List.mem_append.mp hc with h1 | h2
  · have : c = '0' := List.eq_of_mem_replicate h1
    subst this
    decide
  · exact h c h2

theorem padStart2_ne_nil (s : Str) : padStart2 s ≠ [] := by
  intro h
  have := congrArg List.length h
  rw [padStart2] at this
  simp only [List.length_append, List.length_replicate, List.length_nil] at this
  omega

theorem yearStr_digits (d : SimpleDate) : ∀ c ∈ yearStr d, isDig c = true :=
  natToStr_digits _

theorem yearStr_ne_nil (d : SimpleDate) : yearStr d ≠ [] := natToStr_ne_nil _

theorem monthStr_digits (d : SimpleDate) : ∀ c ∈ monthStr d, isDig c = true :=
  padStart2_digits (natToStr_digits _)

theorem monthStr_ne_nil (d : SimpleDate) : monthStr d ≠ [] := padStart2_ne_nil _

theorem dayStr_digits (d : SimpleDate) : ∀ c ∈ dayStr d, isDig c = true :=
  padStart2_digits (natToStr_digits _)

theorem dayStr_ne_nil (d : SimpleDate) : dayStr d ≠ [] := padStart2_ne_nil _

theorem pad2_length : ∀ m, m < 100 → (padStart2 (natToStr m)).length = 2 := by decide

theorem subst_step {tok vs s : Str} (ht : tok ≠ []) (hself : noCrossMidB tok tok = true)
    (h1 : countOcc tok s = 1) :
    ∃ a b, s = a ++ tok ++ b ∧ countOcc tok a = 0 ∧ countOcc tok b = 0 ∧
      replaceFirst tok vs s = a ++ vs ++ b := by
  obtain ⟨a, b, hs, ha, hb⟩ := countOcc_one_split ht h1
  refine ⟨a, b, hs, ha, hb, ?_⟩
  rw [hs]
  exact replaceFirst_splice a ht hself ha

theorem count_swap_mid {tok2 tok vs : Str} (a b : Str) (ht2 : tok2 ≠ [])
    (hnc : noCrossMidB tok2 tok = true) (hz : countOcc tok2 tok = 0)
    (hnd : ∀ c ∈ tok2, isDig c = false) (hdig : ∀ c ∈ vs, isDig c = true)
    (hne : vs ≠ []) :
    countOcc tok2 (a ++ vs ++ b) = countOcc tok2 (a ++ tok ++ b) := by
  rw [countOcc_digit_mid ht2 hnd hdig hne, countOcc_token_mid ht2 hnc, hz]
  omega

theorem count_self_mid {tok vs : Str} (a b : Str) (ht : tok ≠ [])
    (hself : noCrossMidB tok tok = true) (hnd : ∀ c ∈ tok, isDig c = false)
    (hdig : ∀ c ∈ vs, isDig c = true) (hne : vs ≠ []) :
    countOcc tok (a ++ vs ++ b) + 1 = countOcc tok (a ++ tok ++ b) := by
  rw [countOcc_digit_mid ht hnd hdig hne, countOcc_token_mid ht hself, countOcc_self ht]
  omega

theorem lastIndexOfC_eq_none {c : Char} {s : Str} (h : c ∉ s) : lastIndexOfC c s = none := by
  induction s with
  | nil => rfl
  | cons d ds ih =>
    rw [lastIndexOfC]
    rw [ih (fun hmem => h (by simp [hmem]))]
    have hd : d ≠ c := fun he => h (by rw [he]; simp)
    simp [hd]

theorem splitOnC_eq_single {sep : Char} {s : Str} (h : sep ∉ s) : splitOnC sep s = [s] := by
  induction s with
  | nil => rfl
  | cons c cs ih =>
    have hc : c ≠ sep := fun he => h (by rw [he]; simp)
    rw [splitOnC]
    simp only [hc, if_false]
    rw [ih (fun hmem => h (by simp [hmem]))]

theorem exists_last_split {c : Char} {s : Str} (h : c ∈ s) :
    ∃ a b, s = a ++ c :: b ∧ c ∉ b := by
  induction s with
  | nil => simp at h
  | cons x xs ih =>
    by_cases hx : c ∈ xs
    · obtain ⟨a, b, hab, hb⟩ := ih hx
      exact ⟨x :: a, b, by simp [hab], hb⟩
    · have hxc : x = c := by
        rcases List.mem_cons.mp h with he | hmem
        · exact he.symm
        · exact absurd hmem hx
      exact ⟨[], xs, by simp [hxc], hx⟩

theorem splitOnC_cons_sep (sep : Char) (cs : Str) :
    splitOnC sep (sep :: cs) = [] :: splitOnC sep cs := by
  simp [splitOnC]

theorem splitOnC_cons_ne {sep c : Char} (h : c ≠ sep) {cs l : Str} {ls : List Str}
    (hsp : splitOnC sep cs = l :: ls) :
    splitOnC sep (c :: cs) = (c :: l) :: ls := by
  simp [splitOnC, h, hsp]

theorem splitOnC_length_two {sep : Char} {s : Str} (h : sep ∈ s) :
    2 ≤ (splitOnC sep s).length := by
  induction s with
  | nil => simp at h
  | cons c cs ih =>
    by_cases hc : c = sep
    · subst hc
      rw [splitOnC_cons_sep]
      have h2 : 1 ≤ (splitOnC c cs).length := by
        cases hcs : splitOnC c cs with
        | nil => exact absurd hcs (splitOnC_ne_nil c cs)
        | cons a as => simp
      simp only [List.length_cons]
      omega
    · have hcs : sep ∈ cs := by
        rcases List.mem_cons.mp h with he | hmem
        · exact absurd he.symm hc
        · exact hmem
      cases hsp : splitOnC sep cs with
      | nil => exact absurd hsp (splitOnC_ne_nil sep cs)
      | cons l ls =>
        rw [splitOnC_cons_ne hc hsp]
        have := ih hcs
        rw [hsp] at this
        simpa using this

theorem splitOnC_getLastD_append {sep : Char} (a : Str) {b : Str} (h : sep ∉ b) :
    (splitOnC sep (a ++ sep :: b)).getLastD [] = b := by
  induction a with
  | nil =>
    rw [List.nil_append, splitOnC_cons_sep, splitOnC_eq_single h]
    rfl
  | cons x a2 ih =>
    by_cases hx : x = sep
    · subst hx
      rw [List.cons_append, splitOnC_cons_sep, List.getLastD_cons]
      cases hsp : splitOnC x (a2 ++ x :: b) with
      | nil => exact absurd hsp (splitOnC_ne_nil _ _)
      | cons l ls =>
        rw [hsp] at ih
        have hlen : 2 ≤ (splitOnC x (a2 ++ x :: b)).length :=
          splitOnC_length_two (by simp)
        rw [hsp] at hlen
        cases ls with
        | nil => simp at hlen
        | cons l2 ls2 =>
          rw [List.getLastD_cons] at ih ⊢
          exact ih
    · cases hsp : splitOnC sep (a2 ++ sep :: b) with
      | nil => exact absurd hsp (splitOnC_ne_nil _ _)
      | cons l ls =>
        rw [List.cons_append, splitOnC_cons_ne hx hsp]
        have hlen : 2 ≤ (splitOnC sep (a2 ++ sep :: b)).length :=
          splitOnC_length_two (by simp)
        rw [hsp] at hlen
        cases ls with
        | nil => simp at hlen
        | cons l2 ls2 =>
          rw [hsp, List.getLastD_cons] at ih
          rw [List.getLastD_cons]
          exact ih

theorem replaceTextL_placeholder {name p s rep : Str} (hn : '\n' ∉ name)
    (hfirst : ∀ j, j < p.length →
      occursAtB (placeholderCore name) (p ++ placeholderCore name ++ '\n' :: s) j = false) :
    replaceTextL (p ++ placeholderCore name ++ '\n' :: s) (placeholderOf name) rep
      = p ++ rep ++ '\n' :: s := by
  have hcore_nl : '\n' ∉ placeholderCore name := newline_not_in_core hn
  have htr : trimL (placeholderOf name) = placeholderCore name := trimL_placeholderOf name
  rw [replaceTextL_eq_replaceFirst (by rw [htr]; exact hcore_nl), htr]
  have hwalk : ∀ i, i < p.length →
      begins (placeholderCore name)
        ((p ++ (placeholderCore name ++ '\n' :: s)).drop i) = false := by
    intro i hi
    have hf := hfirst i hi
    rw [occursAtB, List.append_assoc] at hf
    exact hf
  rw [List.append_assoc, replaceFirst_walk p hwalk,
    replaceFirst_at (placeholderCore_ne_nil name)]
  simp

theorem perFilePipeline_ok (ur : Except Str Str) (ft : Str) (lu : Bool)
    (lf ph doc : Str) : ∃ d2, perFilePipeline ur ft lu lf ph doc = Except.ok d2 := by
  rw [perFilePipeline]
  split
  · exact ⟨_, rfl⟩
  · exact ⟨_, rfl⟩

theorem promiseAll_ok {l : List (Except Str Str)}
    (h : ∀ x ∈ l, ∃ a2, x = Except.ok a2) :
    ∃ as2, promiseAll l = Except.ok as2 := by
  induction l with
  | nil => exact ⟨[], rfl⟩
  | cons x xs ih =>
    obtain ⟨a2, rfl⟩ := h x (by simp)
    obtain ⟨as2, has⟩ := ih (fun y hy => h y (by simp [hy]))
    rw [promiseAll, has]
    exact ⟨_, rfl⟩

/-! ## Claim theorems -/

/-- C2 counterexample: the claim quantifies over every target, but a
trimmed target that contains a newline is never matched by the line scan
even when it does occur in the document, so the first document-wide
occurrence is not replaced.  Here the document and target are the
two-line text a-newline-b, the target occurs at index 0, yet the
operation is a no-op instead of replacing that occurrence with X. -/
theorem c2_counterexample :
    replaceTextL (toL "a\nb") (toL "a\nb") (toL "X") = toL "a\nb" ∧
    occursAtB (trimL (toL "a\nb")) (toL "a\nb") 0 = true ∧
    toL "a\nb" ≠ toL "X" := by
  refine ⟨?_, ?_, ?_⟩ <;> decide

/-- C2 (amended): for every document, target and replacement, the
replace operation is total and (1) is a no-op when the trimmed target
contains a newline, because no single line can contain it; (2) is a
no-op when the trimmed target occurs nowhere in the document; (3) when
the trimmed target is newline free and has a first occurrence at index
i, the operation splices the replacement over exactly that occurrence,
which is the first occurrence across the whole document (no earlier
index carries an occurrence). -/
theorem c2_replace_first_occurrence (doc target rep : Str) :
    ('\n' ∈ trimL target → replaceTextL doc target rep = doc) ∧
    ((∀ i, occursAtB (trimL target) doc i = false) →
      replaceTextL doc target rep = doc) ∧
    ('\n' ∉ trimL target → ∀ i, findTok (trimL target) doc = some i →
      occursAtB (trimL target) doc i = true ∧
      (∀ j, j < i → occursAtB (trimL target) doc j = false) ∧
      replaceTextL doc target rep
        = doc.take i ++ rep ++ doc.drop (i + (trimL target).length)) := by
  refine ⟨replaceTextL_noop_newline, replaceTextL_noop, ?_⟩
  intro hn i hf
  obtain ⟨h1, h2⟩ := findTok_some_spec hf
  exact ⟨h1, h2, by
    rw [replaceTextL_eq_replaceFirst hn, replaceFirst_findTok_some hf]⟩

/-- C2 witness: the target with surrounding whitespace is trimmed and
its first occurrence in a two-line document is replaced. -/
theorem c2_replace_first_occurrence_witness :
    replaceTextL (toL "x abc y\nabc") (toL " abc ") (toL "Z") = toL "x Z y\nabc" := by
  have h := (c2_replace_first_occurrence (toL "x abc y\nabc") (toL " abc ")
    (toL "Z")).2.2 (by decide) 2 (by decide)
  exact h.2.2.trans (by decide)

/-- C9: the inserted placeholder is the core text followed by one
newline; trimming the target strips exactly that newline, so
reconciliation (success or failure alike) splices the replacement over
the core only and the trailing newline stays in the buffer. -/
theorem c9_placeholder_trailing_newline (name p s rep : Str) (hn : '\n' ∉ name)
    (hfirst : ∀ j, j < p.length →
      occursAtB (placeholderCore name)
        (p ++ placeholderCore name ++ '\n' :: s) j = false) :
    placeholderOf name = placeholderCore name ++ ['\n'] ∧
    trimL (placeholderOf name) = placeholderCore name ∧
    replaceTextL (p ++ placeholderCore name ++ '\n' :: s) (placeholderOf name) rep
      = p ++ rep ++ '\n' :: s :=
  ⟨rfl, trimL_placeholderOf name, replaceTextL_placeholder hn hfirst⟩

/-- C9 witness at a concrete buffer. -/
theorem c9_placeholder_trailing_newline_witness :
    replaceTextL (toL "x " ++ placeholderCore (toL "ab.png") ++ '\n' :: toL " y")
      (placeholderOf (toL "ab.png")) (toL "DONE")
      = toL "x " ++ toL "DONE" ++ '\n' :: toL " y" :=
  (c9_placeholder_trailing_newline (toL "ab.png") (toL "x ") (toL " y") (toL "DONE")
    (by decide) (by decide)).2.2

/-- C3 counterexample: for an original file name with no dot the claim
says the derived name is the bare digest; the code instead appends a dot
and the entire file name, because split-pop on a dotless name returns
the whole name.  With digest bytes 0xab the digest string is ab and the
derived name for original name file is ab.file, not ab. -/
theorem c3_counterexample :
    deriveName (hexDigest [171]) (toL "file") = toL "ab.file" ∧
    deriveName (hexDigest [171]) (toL "file") ≠ hexDigest [171] := by
  constructor <;> decide

/-- C3 (amended): the derived storage name is the digest string followed
by a dot and the last dot-separated segment of the original file name:
the substring after the last dot when the name contains one, and the
whole original name when it contains none (the dot separator is always
present).  The digest string rendered by the hex digest model consists
of lower-case hexadecimal characters only. -/
theorem c3_derive_name (digest fname : Str) :
    (∀ bytes : List Nat, ∀ c ∈ hexDigest bytes, c ∈ toL "0123456789abcdef") ∧
    ('.' ∉ fname → deriveName digest fname = digest ++ '.' :: fname) ∧
    ('.' ∈ fname → ∃ pre suf, fname = pre ++ '.' :: suf ∧ '.' ∉ suf ∧
      deriveName digest fname = digest ++ '.' :: suf) := by
  refine ⟨?_, ?_, ?_⟩
  · intro bytes c hc
    rw [hexDigest] at hc
    obtain ⟨b, hb, hcb⟩ := List.mem_flatMap.mp hc
    have hrange : ∀ m, m < 16 → digitChar m ∈ toL "0123456789abcdef" := by decide
    have hmod : ∀ m : Nat, digitChar m = digitChar (m % 16) := by
      intro m
      rw [digitChar, digitChar, Nat.mod_mod_of_dvd m dvd_rfl]
    rw [byteToHex] at hcb
    rcases List.mem_cons.mp hcb with rfl | hcb2
    · rw [hmod]
      exact hrange _ (Nat.mod_lt _ (by omega))
    · have : c = digitChar (b % 16) := by simpa using hcb2
      subst this
      rw [hmod]
      exact hrange _ (Nat.mod_lt _ (by omega))
  · intro h
    rw [deriveName, splitOnC_eq_single h]
    rfl
  · intro h
    obtain ⟨pre, suf, hps, hsuf⟩ := exists_last_split h
    refine ⟨pre, suf, hps, hsuf, ?_⟩
    rw [deriveName, hps, splitOnC_getLastD_append pre hsuf]

/-- C3 witness: a name with two dots keeps only the part after the last
dot. -/
theorem c3_derive_name_witness :
    deriveName (toL "ab") (toL "archive.tar.gz") = toL "ab.gz" := by
  have h := (c3_derive_name (toL "ab") (toL "archive.tar.gz")).2.2 (by decide)
  obtain ⟨pre, suf, hps, hsuf, heq⟩ := h
  rw [heq]
  have hsufeq : suf = toL "gz" := by
    have h2 : (splitOnC '.' (toL "archive.tar.gz")).getLastD [] = suf := by
      rw [hps]
      exact splitOnC_getLastD_append pre hsuf
    rw [show (splitOnC '.' (toL "archive.tar.gz")).getLastD [] = toL "gz" from by
      decide] at h2
    exact h2.symm
  rw [hsufeq]
  decide

/-- C4 counterexample: the claim says leading and trailing whitespace of
the effective template is trimmed before substitution, but the code
trims only the global setting before the frontmatter overlay, so a
frontmatter override that begins with a space is used verbatim: the
result keeps the space, while the trimmed form drops it. -/
theorem c4_counterexample :
    getFolderPath ⟨[], []⟩ (some ⟨some (toL " a"), none⟩) false ⟨2026, 0, 5⟩
      = toL " a" ∧
    trimL (toL " a") ≠ toL " a" := by
  constructor <;> decide

/-- C4 (amended): the effective folder template is the per-document
frontmatter override verbatim (untrimmed) when it is present and
non-empty, otherwise the trimmed global template of the mode; the date
substitution then replaces the first occurrence of each token only, so a
template carrying a token twice keeps the second copy, as the duplicated
year-token template shows. -/
theorem c4_effective_template (gs : FolderSettings) (fm : Option FmRec)
    (lu : Bool) (d : SimpleDate) :
    getFolderPath gs fm lu d = substDate (effectiveTemplateSpec gs fm lu) d ∧
    substDate (yearTok ++ yearTok) d = yearStr d ++ yearTok := by
  constructor
  · cases fm with
    | none => rfl
    | some f =>
      cases hov : (if lu then f.localUploadFolder else f.folder) with
      | none =>
        rw [getFolderPath, effectiveTemplateSpec, hov]
      | some v =>
        rw [getFolderPath, effectiveTemplateSpec, hov]
  · have h1 : replaceFirst yearTok (yearStr d) (yearTok ++ yearTok)
        = yearStr d ++ yearTok := replaceFirst_at (by decide)
    have hmz : countOcc monthTok (yearStr d ++ yearTok) = 0 := by
      have e := @countOcc_digit_mid monthTok (yearStr d)
        (by decide) (by decide) (yearStr_digits d) (yearStr_ne_nil d) [] yearTok
      simp only [List.nil_append, countOcc_nil, Nat.zero_add] at e
      rw [e]
      decide
    have hdz : countOcc dayTok (yearStr d ++ yearTok) = 0 := by
      have e := @countOcc_digit_mid dayTok (yearStr d)
        (by decide) (by decide) (yearStr_digits d) (yearStr_ne_nil d) [] yearTok
      simp only [List.nil_append, countOcc_nil, Nat.zero_add] at e
      rw [e]
      decide
    rw [substDate, h1, replaceFirst_of_count_zero (by decide) hmz,
      replaceFirst_of_count_zero (by decide) hdz]

/-- C5 counterexample: a template that contains every token but carries
the year token twice still contains a year token after substitution,
because each replace is non-global; so the claim quantified over all
templates containing the tokens fails. -/
theorem c5_counterexample :
    1 ≤ countOcc yearTok (toL "${year}${year}${month}${day}") ∧
    1 ≤ countOcc monthTok (toL "${year}${year}${month}${day}") ∧
    1 ≤ countOcc dayTok (toL "${year}${year}${month}${day}") ∧
    substDate (toL "${year}${year}${month}${day}") ⟨2026, 0, 5⟩
      = toL "2026${year}0105" ∧
    countOcc yearTok (substDate (toL "${year}${year}${month}${day}") ⟨2026, 0, 5⟩)
      ≠ 0 := by
  refine ⟨?_, ?_, ?_, ?_, ?_⟩ <;> decide

/-- C5 (amended): for every template containing each token exactly once
and every calendar date, the substitution result contains no remaining
occurrence of any of the three tokens; each token occurrence is replaced
in place by its component string (the decimal year, the zero-padded
month, the zero-padded day), and the month and day components are
exactly two characters. -/
theorem c5_substitution (s : Str) (d : SimpleDate)
    (hy : countOcc yearTok s = 1) (hm : countOcc monthTok s = 1)
    (hd : countOcc dayTok s = 1)
    (hmo : d.monthIndex < 12) (hda : d.dayOfMonth < 32) :
    countOcc yearTok (substDate s d) = 0 ∧
    countOcc monthTok (substDate s d) = 0 ∧
    countOcc dayTok (substDate s d) = 0 ∧
    (∃ a b, s = a ++ yearTok ++ b ∧
      replaceFirst yearTok (yearStr d) s = a ++ yearStr d ++ b) ∧
    (∃ a b, replaceFirst yearTok (yearStr d) s = a ++ monthTok ++ b ∧
      replaceFirst monthTok (monthStr d) (replaceFirst yearTok (yearStr d) s)
        = a ++ monthStr d ++ b) ∧
    (∃ a b,
      replaceFirst monthTok (monthStr d) (replaceFirst yearTok (yearStr d) s)
        = a ++ dayTok ++ b ∧
      substDate s d = a ++ dayStr d ++ b) ∧
    (monthStr d).length = 2 ∧ (dayStr d).length = 2 := by
  obtain ⟨a, b, hs, ha, hb, hsp1⟩ :=
    @subst_step yearTok (yearStr d) s (by decide) (by decide) hy
  have hy1 : countOcc yearTok (a ++ yearStr d ++ b) = 0 := by
    rw [countOcc_digit_mid (by decide) (by decide) (yearStr_digits d)
      (yearStr_ne_nil d)]
    omega
  have hm1 : countOcc monthTok (a ++ yearStr d ++ b) = 1 := by
    rw [@count_swap_mid monthTok yearTok (yearStr d) a b (by decide) (by decide) (by decide) (by decide)
      (yearStr_digits d) (yearStr_ne_nil d), ← hs]
    exact hm
  have hd1 : countOcc dayTok (a ++ yearStr d ++ b) = 1 := by
    rw [@count_swap_mid dayTok yearTok (yearStr d) a b (by decide) (by decide) (by decide) (by decide)
      (yearStr_digits d) (yearStr_ne_nil d), ← hs]
    exact hd
  obtain ⟨a2, b2, hs2, ha2, hb2, hsp2⟩ :=
    @subst_step monthTok (monthStr d) _ (by decide) (by decide)
      (show countOcc monthTok (replaceFirst yearTok (yearStr d) s) = 1 by
        rw [hsp1]; exact hm1)
  have hy2 : countOcc yearTok (a2 ++ monthStr d ++ b2) = 0 := by
    rw [@count_swap_mid yearTok monthTok (monthStr d) a2 b2 (by decide) (by decide) (by decide) (by decide)
      (monthStr_digits d) (monthStr_ne_nil d), ← hs2, hsp1]
    exact hy1
  have hm2 : countOcc monthTok (a2 ++ monthStr d ++ b2) = 0 := by
    rw [countOcc_digit_mid (by decide) (by decide) (monthStr_digits d)
      (monthStr_ne_nil d)]
    omega
  have hd2 : countOcc dayTok (a2 ++ monthStr d ++ b2) = 1 := by
    rw [@count_swap_mid dayTok monthTok (monthStr d) a2 b2 (by decide) (by decide) (by decide) (by decide)
      (monthStr_digits d) (monthStr_ne_nil d), ← hs2, hsp1]
    exact hd1
  obtain ⟨a3, b3, hs3, ha3, hb3, hsp3⟩ :=
    @subst_step dayTok (dayStr d) _ (by decide) (by decide)
      (show countOcc dayTok
          (replaceFirst monthTok (monthStr d) (replaceFirst yearTok (yearStr d) s))
          = 1 by rw [hsp2]; exact hd2)
  have hsub : substDate s d = a3 ++ dayStr d ++ b3 := by
    rw [substDate]
    exact hsp3
  have hy3 : countOcc yearTok (substDate s d) = 0 := by
    rw [hsub, @count_swap_mid yearTok dayTok (dayStr d) a3 b3 (by decide) (by decide) (by decide) (by decide)
      (dayStr_digits d) (dayStr_ne_nil d), ← hs3, hsp2]
    exact hy2
  have hm3 : countOcc monthTok (substDate s d) = 0 := by
    rw [hsub, @count_swap_mid monthTok dayTok (dayStr d) a3 b3 (by decide) (by decide) (by decide) (by decide)
      (dayStr_digits d) (dayStr_ne_nil d), ← hs3, hsp2]
    exact hm2
  have hd3 : countOcc dayTok (substDate s d) = 0 := by
    rw [hsub, countOcc_digit_mid (by decide) (by decide) (dayStr_digits d)
      (dayStr_ne_nil d)]
    omega
  refine ⟨hy3, hm3, hd3, ⟨a, b, hs, hsp1⟩, ⟨a2, b2, hs2, hsp2⟩,
    ⟨a3, b3, hs3, hsub⟩, ?_, ?_⟩
  · exact pad2_length (d.monthIndex + 1) (by omega)
  · exact pad2_length d.dayOfMonth (by omega)

/-- C5 witness: the canonical template with all three tokens. -/
theorem c5_substitution_witness :
    countOcc yearTok (substDate (toL "a/${year}/${month}/${day}") ⟨2026, 0, 5⟩) = 0 ∧
    countOcc monthTok (substDate (toL "a/${year}/${month}/${day}") ⟨2026, 0, 5⟩) = 0 ∧
    countOcc dayTok (substDate (toL "a/${year}/${month}/${day}") ⟨2026, 0, 5⟩) = 0 := by
  have h := c5_substitution (toL "a/${year}/${month}/${day}") ⟨2026, 0, 5⟩
    (by decide) (by decide) (by decide) (by decide) (by decide)
  exact ⟨h.1, h.2.1, h.2.2.1⟩

/-- C6: the public URL prefix is the custom override verbatim when the
override is enabled; otherwise with path style forced it is the api
endpoint, the bucket and a slash; otherwise the first occurrence of the
scheme separator in the api endpoint is rewritten to inject the bucket
as a subdomain; the two concrete examples of the claim evaluate as
stated. -/
theorem c6_public_url_resolution (cfg : S3Cfg) :
    (cfg.useCustomImageUrl = true → imageUrlPathOf cfg = cfg.customImageUrl) ∧
    (cfg.useCustomImageUrl = false → cfg.forcePathStyle = true →
      imageUrlPathOf cfg = apiEndpointOf cfg ++ cfg.bucket ++ toL "/") ∧
    (∀ u v2, cfg.useCustomImageUrl = false → cfg.forcePathStyle = false →
      apiEndpointOf cfg = u ++ toL "://" ++ v2 → countOcc (toL "://") u = 0 →
      imageUrlPathOf cfg = u ++ toL "://" ++ cfg.bucket ++ toL "." ++ v2) ∧
    imageUrlPathOf ⟨true, toL "https://s3.example.com/", toL "r", toL "b",
      true, false, toL ""⟩ = toL "https://s3.example.com/b/" ∧
    imageUrlPathOf ⟨true, toL "https://s3.example.com/", toL "r", toL "b",
      false, false, toL ""⟩ = toL "https://b.s3.example.com/" := by
  refine ⟨?_, ?_, ?_, by decide, by decide⟩
  · intro h
    rw [imageUrlPathOf, h]
    simp
  · intro h1 h2
    rw [imageUrlPathOf, h1, h2]
    simp
  · intro u v2 h1 h2 happ hcount
    rw [imageUrlPathOf, h1, h2]
    simp only [Bool.false_eq_true, if_false]
    rw [happ, replaceFirst_splice u (by decide) (by decide) hcount]
    simp

/-- C7: the classifier checks the four rules in source order with the
first match winning: video prefix gated by the video flag, audio prefix
gated by the audio flag, exact pdf type gated by the pdf flag, image
prefix unconditional, and no rule matching yields no kind; the three
concrete behaviors of the claim evaluate as stated. -/
theorem c7_classifier (t : Str) (v a p : Bool) :
    (begins (toL "video/") t = true → v = true →
      getFileType t v a p = some (toL "video")) ∧
    (¬(begins (toL "video/") t = true ∧ v = true) →
      begins (toL "audio/") t = true → a = true →
      getFileType t v a p = some (toL "audio")) ∧
    (¬(begins (toL "video/") t = true ∧ v = true) →
      ¬(begins (toL "audio/") t = true ∧ a = true) →
      t = toL "application/pdf" → p = true →
      getFileType t v a p = some (toL "pdf")) ∧
    (¬(begins (toL "video/") t = true ∧ v = true) →
      ¬(begins (toL "audio/") t = true ∧ a = true) →
      ¬(t = toL "application/pdf" ∧ p = true) →
      begins (toL "image/") t = true →
      getFileType t v a p = some (toL "image")) ∧
    (¬(begins (toL "video/") t = true ∧ v = true) →
      ¬(begins (toL "audio/") t = true ∧ a = true) →
      ¬(t = toL "application/pdf" ∧ p = true) →
      begins (toL "image/") t = false →
      getFileType t v a p = none) ∧
    getFileType (toL "video/mp4") false a p = none ∧
    getFileType (toL "video/mp4") true a p = some (toL "video") ∧
    getFileType (toL "image/png") v a p = some (toL "image") := by
  have hbool : ∀ (x : Bool) (q : Prop) [Decidable q],
      ¬(q ∧ x = true) → (∀ hq : q, x = false) ∨ ¬q := by
    intro x q _ hn
    by_cases hq : q
    · left
      intro _
      cases hx : x with
      | false => rfl
      | true => exact absurd ⟨hq, hx⟩ hn
    · right
      exact hq
  refine ⟨?_, ?_, ?_, ?_, ?_, ?_, ?_, ?_⟩
  · intro h1 h2
    rw [getFileType, h1, h2]
    simp
  · intro hn h1 h2
    have hv : (begins (toL "video/") t && v) = false := by
      cases hbv : begins (toL "video/") t with
      | false => simp
      | true =>
        cases hvv : v with
        | false => simp
        | true => exact absurd ⟨hbv, hvv⟩ hn
    rw [getFileType, hv, h1, h2]
    simp
  · intro hn1 hn2 h1 h2
    have hv : (begins (toL "video/") t && v) = false := by
      cases hbv : begins (toL "video/") t with
      | false => simp
      | true =>
        cases hvv : v with
        | false => simp
        | true => exact absurd ⟨hbv, hvv⟩ hn1
    have ha2 : (begins (toL "audio/") t && a) = false := by
      cases hba : begins (toL "audio/") t with
      | false => simp
      | true =>
        cases haa : a with
        | false => simp
        | true => exact absurd ⟨hba, haa⟩ hn2
    have hdt : (decide (t = toL "application/pdf") && p) = true := by
      rw [h1, h2]
      simp
    rw [getFileType, hv, ha2]
    simp only [Bool.false_eq_true, if_false]
    rw [h1, h2]
    simp
  · intro hn1 hn2 hn3 h1
    have hv : (begins (toL "video/") t && v) = false := by
      cases hbv : begins (toL "video/") t with
      | false => simp
      | true =>
        cases hvv : v with
        | false => simp
        | true => exact absurd ⟨hbv, hvv⟩ hn1
    have ha2 : (begins (toL "audio/") t && a) = false := by
      cases hba : begins (toL "audio/") t with
      | false => simp
      | true =>
        cases haa : a with
        | false => simp
        | true => exact absurd ⟨hba, haa⟩ hn2
    have hp2 : (decide (t = toL "application/pdf") && p) = false := by
      by_cases ht : t = toL "application/pdf"
      · cases hpp : p with
        | false => simp [hpp]
        | true => exact absurd ⟨ht, hpp⟩ hn3
      · simp [ht]
    rw [getFileType, hv, ha2, hp2, h1]
    simp
  · intro hn1 hn2 hn3 h1
    have hv : (begins (toL "video/") t && v) = false := by
      cases hbv : begins (toL "video/") t with
      | false => simp
      | true =>
        cases hvv : v with
        | false => simp
        | true => exact absurd ⟨hbv, hvv⟩ hn1
    have ha2 : (begins (toL "audio/") t && a) = false := by
      cases hba : begins (toL "audio/") t with
      | false => simp
      | true =>
        cases haa : a with
        | false => simp
        | true => exact absurd ⟨hba, haa⟩ hn2
    have hp2 : (decide (t = toL "application/pdf") && p) = false := by
      by_cases ht : t = toL "application/pdf"
      · cases hpp : p with
        | false => simp [hpp]
        | true => exact absurd ⟨ht, hpp⟩ hn3
      · simp [ht]
    rw [getFileType, hv, ha2, hp2, h1]
    simp
  · have h1 : begins (toL "video/") (toL "video/mp4") = true := by decide
    have h2 : begins (toL "audio/") (toL "video/mp4") = false := by decide
    have h3 : toL "video/mp4" ≠ toL "application/pdf" := by decide
    have h4 : begins (toL "image/") (toL "video/mp4") = false := by decide
    rw [getFileType, h1, h2, h4]
    simp [h3]
  · have h1 : begins (toL "video/") (toL "video/mp4") = true := by decide
    rw [getFileType, h1]
    simp
  · have h1 : begins (toL "video/") (toL "image/png") = false := by decide
    have h2 : begins (toL "audio/") (toL "image/png") = false := by decide
    have h3 : toL "image/png" ≠ toL "application/pdf" := by decide
    have h4 : begins (toL "image/") (toL "image/png") = true := by decide
    rw [getFileType, h1, h2, h4]
    simp [h3]

/-- C7 witness: an audio type with the audio flag set and the video rule
not matching classifies as audio. -/
theorem c7_classifier_witness :
    getFileType (toL "audio/mpeg") false true false = some (toL "audio") := by
  have h := (c7_classifier (toL "audio/mpeg") false true false).2.1
  exact h (by decide) (by decide) rfl

/-- C6 witness: virtual-hosted rewriting at a concrete endpoint via the
general splice conjunct. -/
theorem c6_public_url_resolution_witness :
    imageUrlPathOf ⟨false, toL "", toL "us-east-1", toL "mybkt", false, false, toL ""⟩
      = toL "https://mybkt.s3.us-east-1.amazonaws.com/" := by
  have h := (c6_public_url_resolution
    ⟨false, toL "", toL "us-east-1", toL "mybkt", false, false, toL ""⟩).2.2.1
    (toL "https") (toL "s3.us-east-1.amazonaws.com/") rfl rfl (by decide) (by decide)
  exact h.trans (by decide)

/-- C8: the renderer yields the image markup for kind image, a video or
audio tag whose src is prefixed by the file scheme and the local base
exactly when the base is non-empty and is the location verbatim
otherwise, an iframe of width 100 percent and height 800 with the
location as src for kind pdf, and an error for every other kind. -/
theorem c8_renderer (loc base : Str) :
    wrapFile loc (toL "image") base
      = Except.ok (toL "![image](" ++ loc ++ toL ")") ∧
    (base ≠ [] → wrapFile loc (toL "video") base
      = Except.ok (toL "<video src=\"" ++ (toL "file://" ++ base ++ toL "/")
          ++ loc ++ toL "\" controls />")) ∧
    wrapFile loc (toL "video") []
      = Except.ok (toL "<video src=\"" ++ loc ++ toL "\" controls />") ∧
    (base ≠ [] → wrapFile loc (toL "audio") base
      = Except.ok (toL "<audio src=\"" ++ (toL "file://" ++ base ++ toL "/")
          ++ loc ++ toL "\" controls />")) ∧
    wrapFile loc (toL "audio") []
      = Except.ok (toL "<audio src=\"" ++ loc ++ toL "\" controls />") ∧
    wrapFile loc (toL "pdf") base
      = Except.ok (toL "<iframe frameborder=\"0\" border=\"0\" width=\"100%\" height=\"800\" src=\""
          ++ loc ++ toL "\"></iframe>") ∧
    (∀ ty : Str, ty ≠ toL "image" → ty ≠ toL "video" → ty ≠ toL "audio" →
      ty ≠ toL "pdf" → wrapFile loc ty base = Except.error (toL "Unknown file type")) := by
  have d1 : toL "video" ≠ toL "image" := by decide
  have d2 : toL "audio" ≠ toL "image" := by decide
  have d3 : toL "audio" ≠ toL "video" := by decide
  have d4 : toL "pdf" ≠ toL "image" := by decide
  have d5 : toL "pdf" ≠ toL "video" := by decide
  have d6 : toL "pdf" ≠ toL "audio" := by decide
  refine ⟨?_, ?_, ?_, ?_, ?_, ?_, ?_⟩
  · simp [wrapFile]
  · intro hb
    simp [wrapFile, d1, hb]
  · simp [wrapFile, d1]
  · intro hb
    simp [wrapFile, d2, d3, hb]
  · simp [wrapFile, d2, d3]
  · simp [wrapFile, d4, d5, d6]
  · intro ty h1 h2 h3 h4
    simp [wrapFile, h1, h2, h3, h4]

/-- C8 witness: a video embed in local mode carries the file scheme
prefix. -/
theorem c8_renderer_witness :
    wrapFile (toL "u.mp4") (toL "video") (toL "base")
      = Except.ok (toL "<video src=\"" ++ (toL "file://" ++ toL "base" ++ toL "/")
          ++ toL "u.mp4" ++ toL "\" controls />") :=
  (c8_renderer (toL "u.mp4") (toL "base")).2.1 (by decide)

/-- C10: a local upload whose storage key contains no slash computes an
empty folder path, never takes the folder creation branch, writes the
bytes at the bare key, and returns the key itself, which cannot start
with a slash. -/
theorem c10_local_bare_key (existsFn : Str → Bool) (key : Str) (h : '/' ∉ key) :
    (∀ pth, FsOp.createFolder pth ∉ (uploadFileLocal existsFn key).1) ∧
    FsOp.writeBinary key ∈ (uploadFileLocal existsFn key).1 ∧
    (uploadFileLocal existsFn key).2 = key ∧
    (∀ c rest, (uploadFileLocal existsFn key).2 = c :: rest → c ≠ '/') := by
  have hnone : lastIndexOfC '/' key = none := lastIndexOfC_eq_none h
  have hbeg : begins (toL "/") key = false := by
    have hsl : toL "/" = ['/'] := by decide
    cases key with
    | nil => rw [hsl]; rfl
    | cons k ks =>
      have hk : ('/' == k) = false := by
        have : k ≠ '/' := fun he => h (by rw [he]; simp)
        simp only [beq_eq_false_iff_ne, ne_eq]
        exact fun he => this he.symm
      rw [hsl]
      show (('/' == k) && begins [] ks) = false
      rw [hk]
      simp
  have hval : uploadFileLocal existsFn key
      = ([FsOp.existsCheck [], FsOp.writeBinary key], key) := by
    rw [uploadFileLocal, hnone, hbeg]
    simp
  refine ⟨?_, ?_, ?_, ?_⟩
  · intro pth hmem
    rw [hval] at hmem
    simp at hmem
  · rw [hval]
    simp
  · rw [hval]
  · intro c rest hc
    rw [hval] at hc
    simp only at hc
    intro he
    subst he
    apply h
    rw [hc]
    simp

/-- C10 witness. -/
theorem c10_local_bare_key_witness :
    (uploadFileLocal (fun _ => false) (toL "bare.png")).2 = toL "bare.png" :=
  (c10_local_bare_key (fun _ => false) (toL "bare.png") (by decide)).2.2.1

/-- C1: every per-file pipeline settles with a fulfilled promise
whatever the upload outcome (the catch converts any failure into a
buffer edit); a failed upload replaces the placeholder by the error
line; a batch of pipelines always fires the single all-files-processed
notice whatever mix of successes and failures it carries, because no
per-file promise rejects; and a failing file only rewrites its own
placeholder, leaving the buffer before and after it, including sibling
placeholders, verbatim. -/
theorem c1_error_containment :
    (∀ (ur : Except Str Str) (ft : Str) (lu : Bool) (lf ph doc : Str),
      ∃ d2, perFilePipeline ur ft lu lf ph doc = Except.ok d2) ∧
    (∀ (msg ft : Str) (lu : Bool) (lf ph doc : Str),
      perFilePipeline (Except.error msg) ft lu lf ph doc
        = Except.ok (replaceTextL doc ph (errorLineOf msg))) ∧
    (∀ batch : List ((Except Str Str × Str × Bool × Str × Str) × Str),
      batchNotices (batch.map (fun x =>
        perFilePipeline x.1.1 x.1.2.1 x.1.2.2.1 x.1.2.2.2.1 x.1.2.2.2.2 x.2))
        = [toL "All files processed."]) ∧
    (∀ (name p s msg ft : Str) (lu : Bool) (lf : Str), '\n' ∉ name →
      (∀ j, j < p.length → occursAtB (placeholderCore name)
        (p ++ placeholderCore name ++ '\n' :: s) j = false) →
      perFilePipeline (Except.error msg) ft lu lf (placeholderOf name)
        (p ++ placeholderCore name ++ '\n' :: s)
        = Except.ok (p ++ errorLineOf msg ++ '\n' :: s)) := by
  have h2 : ∀ (msg ft : Str) (lu : Bool) (lf ph doc : Str),
      perFilePipeline (Except.error msg) ft lu lf ph doc
        = Except.ok (replaceTextL doc ph (errorLineOf msg)) := by
    intro msg ft lu lf ph doc
    rfl
  refine ⟨fun ur ft lu lf ph doc => perFilePipeline_ok ur ft lu lf ph doc, h2, ?_, ?_⟩
  · intro batch
    have hall : ∀ x ∈ batch.map (fun x =>
        perFilePipeline x.1.1 x.1.2.1 x.1.2.2.1 x.1.2.2.2.1 x.1.2.2.2.2 x.2),
        ∃ a2, x = Except.ok a2 := by
      intro x hx
      obtain ⟨y, hy, rfl⟩ := List.mem_map.mp hx
      exact perFilePipeline_ok _ _ _ _ _ _
    obtain ⟨as2, has⟩ := promiseAll_ok hall
    rw [batchNotices, has]
  · intro name p s msg ft lu lf hn hfirst
    rw [h2]
    rw [replaceTextL_placeholder hn hfirst]

/-- C1 witness: a failed upload in a buffer with text on both sides of
the placeholder. -/
theorem c1_error_containment_witness :
    perFilePipeline (Except.error (toL "boom")) (toL "image") false []
      (placeholderOf (toL "h.png"))
      (toL "A " ++ placeholderCore (toL "h.png") ++ '\n' :: toL " B")
      = Except.ok (toL "A " ++ errorLineOf (toL "boom") ++ '\n' :: toL " B") :=
  c1_error_containment.2.2.2 (toL "h.png") (toL "A ") (toL " B") (toL "boom")
    (toL "image") false [] (by decide) (by decide)
